import Mathlib

/-
Verification of the mouse-jiggler firmware core (rp2350).

Shallow embedding of the three source files:
  * src/jiggle/movement.rs — the movement-vector generator (struct Movement);
  * src/jiggle/state.rs    — the shared on/off toggle (struct State);
  * src/main.rs            — the free function generate_jiggle_vector, the
    JIGGLE flag, and the control-flow skeletons of the two concurrent task
    bodies (in_fut and led_fut).

Machine integers are modelled as Nat / Int with explicit truncation where the
source casts: u8 casts are `% 256`, the u32 truncating cast is `% 2^32`, and
the u8 → i8 reinterpretation is toI8.  All values that actually flow through
the generator at the default configuration stay far inside the i8 range, so
Int arithmetic coincides with the source's i8 arithmetic; the one wrapping
operation the source performs on i8 (unary negation in the mirror phase) is
modelled exactly by negI8.
-/

set_option autoImplicit false

/-- Largest u32 value, the constant u32::MAX of the source. -/
def u32Max : Nat := 4294967295

/-- Reinterpretation of a u8 value (an already-truncated Nat below 256) as an
i8, the source's x_u8 as i8 cast. -/
def toI8 (n : Nat) : Int :=
  if n < 128 then (n : Int) else (n : Int) - 256

/-- Two's-complement i8 negation.  For every representable i8 value except
-128 this is mathematical negation; -128 wraps to itself. -/
def negI8 (v : Int) : Int :=
  if v = -128 then -128 else -v

/-- A heapless::Vec of i8 with capacity fixed at construction: the contents
as a list together with the capacity bound. -/
structure HVec where
  cap : Nat
  data : List Int
deriving DecidableEq

/-- heapless::Vec::is_full — the length has reached the capacity. -/
def HVec.isFull (v : HVec) : Bool := v.cap ≤ v.data.length

/-- heapless::Vec::push — appends when there is room; on a full vector the
vector is unchanged and the error flag (the Result::is_err of the source) is
true. -/
def HVec.push (v : HVec) (x : Int) : HVec × Bool :=
  if v.data.length < v.cap then ({ v with data := v.data ++ [x] }, false)
  else (v, true)

/-- The forward while-loop of the generator, fuel-indexed.  The fuel is the
free capacity of the vector: every iteration of the source loop pushes
exactly one element (the push cannot fail after the is_full check), so the
loop runs at most that many times, and when the fuel is 0 the vector is full
and the loop guard is false anyway. -/
def forwardAux (s : Int) : Nat → Int → HVec → HVec
  | 0, _, vec => vec
  | fuel + 1, remaining, vec =>
    if 0 < remaining ∧ ¬ vec.isFull then
      let to_push : Int := if s ≤ remaining then s else remaining
      let p := vec.push to_push
      if p.2 then p.1 else forwardAux s fuel (remaining - to_push) p.1
    else vec

/-- The forward phase: while remaining > 0 and the vector is not full, push
step-sized chunks (the last chunk possibly smaller), movement.rs lines
33-43 and main.rs lines 49-55. -/
def forwardLoop (s : Int) (remaining : Int) (vec : HVec) : HVec :=
  forwardAux s (vec.cap - vec.data.length) remaining vec

/-- The mirror phase: iterate in reverse over a clone of the current values
and push the i8 negation of each until the vector is full, movement.rs lines
48-55 and main.rs lines 60-67.  The argument list is the reversed clone. -/
def mirrorLoop : List Int → HVec → HVec
  | [], vec => vec
  | v :: rest, vec =>
    if vec.isFull then vec else mirrorLoop rest (vec.push (negI8 v)).1

/-- The Movement configuration struct of src/jiggle/movement.rs. -/
structure Movement where
  upper_limit : Nat
  lower_limit : Nat
  step : Int

/-- Movement::new — the default configuration. -/
def Movement.new : Movement :=
  { upper_limit := 32, lower_limit := 6, step := 6 }

/-- The scaled value of movement.rs lines 23-28: the u8 range
upper_limit - lower_limit, and the seed scaled over the full 32-bit domain
through a widened 64-bit product; the final as u32 cast is the % 2^32
truncation. -/
def Movement.scaledOf (m : Movement) (seed : Nat) : Nat :=
  if seed = u32Max then m.upper_limit - m.lower_limit
  else seed * (m.upper_limit - m.lower_limit) / u32Max % 2 ^ 32

/-- The initial value of the mutable variable remaining, movement.rs lines
29-30: x_u8 = (lower_limit as u32 + scaled) as u8, reinterpreted as i8.
The intermediate u32 addition cannot affect the low 8 bits, since 256
divides 2^32, so the u8 cast is written directly as % 256. -/
def Movement.forwardMagnitude (m : Movement) (seed : Nat) : Int :=
  toI8 ((m.lower_limit + m.scaledOf seed) % 256)

/-- Movement::generate_vector, movement.rs lines 20-56: the forward phase
followed by the mirror phase over the reversed clone of the current
contents. -/
def Movement.generate_vector (m : Movement) (seed : Nat) (vec : HVec) : HVec :=
  let vec1 := forwardLoop m.step (m.forwardMagnitude seed) vec
  mirrorLoop vec1.data.reverse vec1

/-- The free function generate_jiggle_vector of main.rs lines 32-68, with
its local constants UPPER = 32, LOWER = 6, STEP = 6; the body repeats the
scaling, forward and mirror code of Movement::generate_vector verbatim. -/
def generate_jiggle_vector (rng_value : Nat) (vec : HVec) : HVec :=
  let UPPER : Nat := 32
  let LOWER : Nat := 6
  let STEP : Int := 6
  let range : Nat := UPPER - LOWER
  let scaled : Nat :=
    if rng_value = u32Max then range else rng_value * range / u32Max % 2 ^ 32
  let x_u8 : Nat := (LOWER + scaled) % 256
  let remaining : Int := toI8 x_u8
  let vec1 := forwardLoop STEP remaining vec
  mirrorLoop vec1.data.reverse vec1

namespace Jiggle

/-- The shared toggle of src/jiggle/state.rs: a single boolean behind a
mutex.  Sequential model: the stored value; each operation returns its
result paired with the post-state. -/
structure State where
  value : Bool
deriving DecidableEq

/-- State::new — the flag starts out true (jiggle enabled at power-up). -/
def State.new : State := { value := true }

/-- State::is_enabled — lock, copy the current value, unlock, return the
copy; the stored value is not mutated. -/
def State.is_enabled (s : State) : Bool × State := (s.value, s)

/-- State::toggle — lock, flip the stored value, copy the new value,
unlock, return the copy. -/
def State.toggle (s : State) : Bool × State := (!s.value, { value := !s.value })

end Jiggle

/-- The static JIGGLE flag of main.rs line 30: Mutex::new(true). -/
def JIGGLE : Bool := true

/-- One observable event of a task body: mutex acquisition and release, the
work done under or outside the lock, and the three kinds of await points
(report submission, timer delay, button-edge wait). -/
inductive Ev where
  | lockAcquire : Ev
  | lockRelease : Ev
  | readFlag : Ev
  | flipFlag : Ev
  | awaitReport : Ev
  | awaitTimer : Ev
  | awaitEdge : Ev
  | setLed : Ev
deriving DecidableEq

/-- Whether an event is a suspension point (an await on I/O or a delay). -/
def Ev.isAwait : Ev → Bool
  | .awaitReport => true
  | .awaitTimer => true
  | .awaitEdge => true
  | _ => false

/-- Event trace of one iteration of the in_fut loop body, main.rs lines
138-180: acquire the JIGGLE mutex, read the flag, release (end of the inner
scope); if disabled, await the 1 s timer and continue; if enabled, generate
the jiggle vector (pure, no events), await one report submission per element,
then await the inter-cycle delay. -/
def in_fut_body (jiggle : Bool) (nReports : Nat) : List Ev :=
  [Ev.lockAcquire, Ev.readFlag, Ev.lockRelease] ++
    (if jiggle then List.replicate nReports Ev.awaitReport ++ [Ev.awaitTimer]
     else [Ev.awaitTimer])

/-- Event trace of one iteration of the led_fut loop body, main.rs lines
194-217: await the falling edge, acquire the JIGGLE mutex, flip and copy the
flag, release (end of the inner scope), then drive the LEDs. -/
def led_fut_body : List Ev :=
  [Ev.awaitEdge, Ev.lockAcquire, Ev.flipFlag, Ev.lockRelease, Ev.setLed]

/-- The lock-holding state after one event. -/
def stepLock (held : Bool) (e : Ev) : Bool :=
  if e = Ev.lockAcquire then true else if e = Ev.lockRelease then false else held

/-- Scans a trace tracking whether the lock is held; true iff no await event
occurs while the lock is held. -/
def noAwaitWhileLocked : Bool → List Ev → Bool
  | _, [] => true
  | held, e :: rest => (!(held && e.isAwait)) && noAwaitWhileLocked (stepLock held e) rest

/-- Whether the lock is held after running a whole trace from a given
initial holding state. -/
def lockHeldAfter : Bool → List Ev → Bool
  | held, [] => held
  | held, e :: rest => lockHeldAfter (stepLock held e) rest

/-- Specification-level view of the forward phase: the list of chunks the
forward loop pushes, given the step, the remaining magnitude and the free
room.  Mirrors forwardAux element by element. -/
def forwardChunks (s : Int) : Int → Nat → List Int
  | _, 0 => []
  | remaining, room + 1 =>
    if 0 < remaining then
      (if s ≤ remaining then s else remaining) ::
        forwardChunks s (remaining - if s ≤ remaining then s else remaining) room
    else []

/-- The range every generated displacement step lies in: non-zero with
magnitude at most the step size 6. -/
def inStepRange (v : Int) : Prop := (1 ≤ v ∧ v ≤ 6) ∨ (-6 ≤ v ∧ v ≤ -1)

instance : DecidablePred inStepRange := fun v => by
  unfold inStepRange; infer_instance

@[simp] lemma Movement.new_step : Movement.new.step = 6 := rfl

@[simp] lemma Movement.new_upper : Movement.new.upper_limit = 32 := rfl

@[simp] lemma Movement.new_lower : Movement.new.lower_limit = 6 := rfl

lemma negI8_of_ne {v : Int} (h : v ≠ -128) : negI8 v = -v := by
  simp [negI8, h]

lemma HVec.push_of_lt {v : HVec} {x : Int} (h : v.data.length < v.cap) :
    v.push x = ({ v with data := v.data ++ [x] }, false) := by
  simp [HVec.push, h]

lemma HVec.not_isFull_of_lt {v : HVec} (h : v.data.length < v.cap) :
    ¬ v.isFull = true := by
  simp [HVec.isFull]; omega

lemma forwardAux_cap (s : Int) :
    ∀ (fuel : Nat) (remaining : Int) (vec : HVec),
      (forwardAux s fuel remaining vec).cap = vec.cap := by
  intro fuel
  induction fuel with
  | zero => intro remaining vec; rfl
  | succ n ih =>
    intro remaining vec
    by_cases hg : 0 < remaining ∧ ¬ vec.isFull = true
    · have hlt : vec.data.length < vec.cap := by
        have := hg.2; simp [HVec.isFull] at this; omega
      simp only [forwardAux, if_pos hg, HVec.push_of_lt hlt]
      simp [ih]
    · simp only [forwardAux, if_neg hg]

lemma forwardAux_data (s : Int) :
    ∀ (fuel : Nat) (remaining : Int) (vec : HVec),
      vec.cap - vec.data.length = fuel →
      (forwardAux s fuel remaining vec).data = vec.data ++ forwardChunks s remaining fuel := by
  intro fuel
  induction fuel with
  | zero => intro remaining vec _; simp [forwardAux, forwardChunks]
  | succ n ih =>
    intro remaining vec h
    have hlt : vec.data.length < vec.cap := by omega
    have hnf : ¬ vec.isFull = true := HVec.not_isFull_of_lt hlt
    by_cases hrem : 0 < remaining
    · simp only [forwardAux, if_pos (And.intro hrem hnf), HVec.push_of_lt hlt]
      simp only [Bool.false_eq_true, if_false]
      rw [ih _ _ (by simp; omega)]
      simp [forwardChunks, hrem]
    · have hng : ¬ (0 < remaining ∧ ¬ vec.isFull = true) := by tauto
      simp [forwardAux, hng, forwardChunks, hrem]

lemma forwardLoop_data (s remaining : Int) (vec : HVec) :
    (forwardLoop s remaining vec).data =
      vec.data ++ forwardChunks s remaining (vec.cap - vec.data.length) :=
  forwardAux_data s _ remaining vec rfl

lemma forwardLoop_cap (s remaining : Int) (vec : HVec) :
    (forwardLoop s remaining vec).cap = vec.cap :=
  forwardAux_cap s _ remaining vec

lemma mirrorLoop_data :
    ∀ (l : List Int) (vec : HVec),
      (mirrorLoop l vec).data =
        vec.data ++ (l.map negI8).take (vec.cap - vec.data.length) := by
  intro l
  induction l with
  | nil => intro vec; simp [mirrorLoop]
  | cons v rest ih =>
    intro vec
    by_cases hfull : vec.cap ≤ vec.data.length
    · have h0 : vec.cap - vec.data.length = 0 := by omega
      have hf : vec.isFull = true := by simp [HVec.isFull]; omega
      simp [mirrorLoop, hf, h0]
    · have hlt : vec.data.length < vec.cap := by omega
      have hnf : ¬ vec.isFull = true := HVec.not_isFull_of_lt hlt
      have hk : vec.cap - vec.data.length = (vec.cap - (vec.data.length + 1)) + 1 := by omega
      simp only [mirrorLoop, hnf, if_false, HVec.push_of_lt hlt, Bool.false_eq_true]
      rw [ih]
      simp only [List.map_cons, hk, List.take_succ_cons]
      simp [List.append_assoc]

lemma mirrorLoop_of_full (l : List Int) {vec : HVec} (h : vec.isFull = true) :
    mirrorLoop l vec = vec := by
  cases l <;> simp [mirrorLoop, h]

lemma Movement.generate_vector_data (m : Movement) (seed : Nat) (vec : HVec) :
    (m.generate_vector seed vec).data =
      (forwardLoop m.step (m.forwardMagnitude seed) vec).data ++
        (((forwardLoop m.step (m.forwardMagnitude seed) vec).data.reverse.map negI8).take
          (vec.cap - (forwardLoop m.step (m.forwardMagnitude seed) vec).data.length)) := by
  simp only [Movement.generate_vector]
  rw [mirrorLoop_data, forwardLoop_cap]

lemma forwardChunks_sum :
    ∀ (room : Nat) (remaining : Int), 0 ≤ remaining → remaining ≤ 6 * (room : Int) →
      (forwardChunks 6 remaining room).sum = remaining := by
  intro room
  induction room with
  | zero =>
    intro remaining h0 h6
    have hz : remaining = 0 := by simp at h6; omega
    simp [forwardChunks, hz]
  | succ n ih =>
    intro remaining h0 h6
    by_cases hrem : 0 < remaining
    · by_cases hs : (6 : Int) ≤ remaining
      · have hrec := ih (remaining - 6) (by omega) (by push_cast at h6 ⊢; omega)
        simp only [forwardChunks, if_pos hrem, if_pos hs, List.sum_cons, hrec]
        omega
      · have hrec := ih (remaining - remaining) (by omega) (by omega)
        simp only [forwardChunks, if_pos hrem, if_neg hs, List.sum_cons, hrec]
        omega
    · have hz : remaining = 0 := by omega
      simp [forwardChunks, hz]

lemma forwardChunks_length :
    ∀ (room : Nat) (remaining : Int) (k : Nat), remaining ≤ 6 * (k : Int) →
      (forwardChunks 6 remaining room).length ≤ k := by
  intro room
  induction room with
  | zero => intro remaining k _; simp [forwardChunks]
  | succ n ih =>
    intro remaining k hk
    by_cases hrem : 0 < remaining
    · have hkpos : 1 ≤ k := by by_contra hc; omega
      by_cases hs : (6 : Int) ≤ remaining
      · have hrec := ih (remaining - 6) (k - 1) (by push_cast [Nat.cast_sub hkpos] at hk ⊢; omega)
        simp only [forwardChunks, if_pos hrem, if_pos hs, List.length_cons]
        omega
      · have hrec := ih (remaining - remaining) (k - 1)
          (by push_cast [Nat.cast_sub hkpos]; omega)
        simp only [forwardChunks, if_pos hrem, if_neg hs, List.length_cons]
        omega
    · simp [forwardChunks, hrem]

lemma forwardChunks_mem :
    ∀ (room : Nat) (remaining e : Int), e ∈ forwardChunks 6 remaining room →
      1 ≤ e ∧ e ≤ 6 := by
  intro room
  induction room with
  | zero => intro remaining e h; simp [forwardChunks] at h
  | succ n ih =>
    intro remaining e h
    by_cases hrem : 0 < remaining
    · by_cases hs : (6 : Int) ≤ remaining
      · simp only [forwardChunks, if_pos hrem, if_pos hs, List.mem_cons] at h
        rcases h with h | h
        · omega
        · exact ih _ _ h
      · simp only [forwardChunks, if_pos hrem, if_neg hs, List.mem_cons] at h
        rcases h with h | h
        · omega
        · exact ih _ _ h
    · simp [forwardChunks, hrem] at h

lemma forwardChunks_cons_of_le (remaining : Int) (room : Nat)
    (h6 : 6 ≤ remaining) (hr : 1 ≤ room) :
    forwardChunks 6 remaining room = 6 :: forwardChunks 6 (remaining - 6) (room - 1) := by
  obtain ⟨n, rfl⟩ : ∃ n, room = n + 1 := ⟨room - 1, by omega⟩
  simp [forwardChunks, show (0 : Int) < remaining by omega, h6]

lemma map_negI8_of_ne (l : List Int) (h : ∀ v ∈ l, v ≠ -128) :
    l.map negI8 = l.map (fun v => -v) := by
  induction l with
  | nil => rfl
  | cons v rest ih =>
    simp only [List.map_cons]
    rw [ih (fun w hw => h w (List.mem_cons_of_mem _ hw)),
      negI8_of_ne (h v (List.mem_cons_self _ _))]

lemma sum_map_neg (l : List Int) : (l.map (fun v => -v)).sum = -l.sum := by
  induction l with
  | nil => simp
  | cons v rest ih => simp [ih]; ring

lemma Movement.scaledOf_new (seed : Nat) :
    Movement.new.scaledOf seed =
      if seed = u32Max then 26 else seed * 26 / u32Max % 2 ^ 32 := by
  simp [Movement.scaledOf]

lemma Movement.scaledOf_new_le (seed : Nat) (h : seed < 2 ^ 32) :
    Movement.new.scaledOf seed ≤ 26 := by
  rw [Movement.scaledOf_new]
  by_cases hm : seed = u32Max
  · simp [hm]
  · rw [if_neg hm]
    have h1 : seed * 26 / u32Max ≤ 26 := by
      have hle : seed * 26 ≤ 26 * u32Max := by
        have hs : seed ≤ u32Max := by unfold u32Max; omega
        nlinarith
      calc seed * 26 / u32Max ≤ 26 * u32Max / u32Max := Nat.div_le_div_right hle
        _ = 26 := Nat.mul_div_cancel 26 (by unfold u32Max; omega)
    exact le_trans (Nat.mod_le _ _) h1

lemma Movement.forwardMagnitude_new_eq (seed : Nat) (h : seed < 2 ^ 32) :
    Movement.new.forwardMagnitude seed = ((6 + Movement.new.scaledOf seed : Nat) : Int) := by
  have hs := Movement.scaledOf_new_le seed h
  unfold Movement.forwardMagnitude
  have h256 : (Movement.new.lower_limit + Movement.new.scaledOf seed) % 256
      = 6 + Movement.new.scaledOf seed := by
    show (6 + Movement.new.scaledOf seed) % 256 = _
    exact Nat.mod_eq_of_lt (by omega)
  rw [h256]
  unfold toI8
  rw [if_pos (by omega)]

lemma Movement.forwardMagnitude_new_range (seed : Nat) (h : seed < 2 ^ 32) :
    6 ≤ Movement.new.forwardMagnitude seed ∧ Movement.new.forwardMagnitude seed ≤ 32 := by
  have h1 := Movement.scaledOf_new_le seed h
  rw [Movement.forwardMagnitude_new_eq seed h]
  push_cast
  omega

/-- C1: for every 32-bit seed and every buffer capacity N at least
2*ceil((upper_bound - lower_bound)/step_size) + 2 = 12 at the default
configuration (upper 32, lower 6, step 6), a single generate call on an
initially empty buffer produces a sequence whose elements sum to exactly 0,
so the cursor returns to its origin; stated both for
Movement::generate_vector and for the identical free function
generate_jiggle_vector of main.rs. -/
theorem C1_generate_sum_zero (seed N : Nat) (hs : seed < 2 ^ 32) (hN : 12 ≤ N) :
    ((Movement.new.generate_vector seed ⟨N, []⟩).data).sum = 0 ∧
    ((generate_jiggle_vector seed ⟨N, []⟩).data).sum = 0 := by
  obtain ⟨hM6, hM32⟩ := Movement.forwardMagnitude_new_range seed hs
  have key : ((Movement.new.generate_vector seed ⟨N, []⟩).data).sum = 0 := by
    rw [Movement.generate_vector_data]
    have hfl : (forwardLoop Movement.new.step (Movement.new.forwardMagnitude seed) ⟨N, []⟩).data
        = forwardChunks 6 (Movement.new.forwardMagnitude seed) N := by
      rw [Movement.new_step, forwardLoop_data]
      simp
    rw [hfl]
    have hsum := forwardChunks_sum N (Movement.new.forwardMagnitude seed) (by omega) (by omega)
    have hlen := forwardChunks_length N (Movement.new.forwardMagnitude seed) 6 (by omega)
    have hne : ∀ v ∈ (forwardChunks 6 (Movement.new.forwardMagnitude seed) N).reverse,
        v ≠ -128 := by
      intro v hv
      have := forwardChunks_mem N _ v (List.mem_reverse.mp hv)
      omega
    have htake : (((forwardChunks 6 (Movement.new.forwardMagnitude seed) N).reverse.map
          negI8).take ((⟨N, []⟩ : HVec).cap -
            (forwardChunks 6 (Movement.new.forwardMagnitude seed) N).length))
        = (forwardChunks 6 (Movement.new.forwardMagnitude seed) N).reverse.map negI8 := by
      apply List.take_of_length_le
      simp only [List.length_map, List.length_reverse]
      show _ ≤ N - _
      omega
    rw [htake, map_negI8_of_ne _ hne, List.sum_append, sum_map_neg, List.sum_reverse, hsum]
    omega
  exact ⟨key, key⟩

theorem C1_generate_sum_zero_witness :
    (7 : Nat) < 2 ^ 32 ∧ (12 : Nat) ≤ 12 ∧
      ((Movement.new.generate_vector 7 ⟨12, []⟩).data).sum = 0 :=
  ⟨by decide, by decide, (C1_generate_sum_zero 7 12 (by decide) (by decide)).1⟩

/-- C4: for every 32-bit seed the mapped forward magnitude lies in the
inclusive range [lower_bound, upper_bound] = [6, 32] and equals the sum of
the forward steps when the forward phase is not cut short by capacity;
seed u32::MAX maps exactly to upper_bound 32, seed 0 maps exactly to
lower_bound 6, and the widened 64-bit intermediate product seed * range
never overflows. -/
theorem C4_magnitude_mapping (seed N : Nat) (hs : seed < 2 ^ 32) (hN : 6 ≤ N) :
    (6 ≤ Movement.new.forwardMagnitude seed ∧ Movement.new.forwardMagnitude seed ≤ 32) ∧
    (forwardLoop Movement.new.step (Movement.new.forwardMagnitude seed) ⟨N, []⟩).data.sum
      = Movement.new.forwardMagnitude seed ∧
    Movement.new.forwardMagnitude (2 ^ 32 - 1) = 32 ∧
    Movement.new.forwardMagnitude 0 = 6 ∧
    seed * (Movement.new.upper_limit - Movement.new.lower_limit) < 2 ^ 64 := by
  obtain ⟨h6, h32⟩ := Movement.forwardMagnitude_new_range seed hs
  refine ⟨⟨h6, h32⟩, ?_, by decide, by decide, ?_⟩
  · rw [Movement.new_step, forwardLoop_data]
    have hroom : (⟨N, []⟩ : HVec).cap - (⟨N, []⟩ : HVec).data.length = N := by simp
    rw [hroom]
    simp only [List.nil_append]
    exact forwardChunks_sum N _ (by omega) (by omega)
  · have he : Movement.new.upper_limit - Movement.new.lower_limit = 26 := by decide
    have h64 : (2 : Nat) ^ 64 = 18446744073709551616 := by norm_num
    have h32' : (2 : Nat) ^ 32 = 4294967296 := by norm_num
    rw [he, h64]
    rw [h32'] at hs
    omega

theorem C4_magnitude_mapping_witness :
    (0 : Nat) < 2 ^ 32 ∧ (6 : Nat) ≤ 6 ∧
      (forwardLoop Movement.new.step (Movement.new.forwardMagnitude 0) ⟨6, []⟩).data.sum
        = Movement.new.forwardMagnitude 0 :=
  ⟨by decide, by decide, (C4_magnitude_mapping 0 6 (by decide) (by decide)).2.1⟩

/-- C5: capacity exhaustion never makes the generator fail: for every
32-bit seed, a call starting with at least one free slot appends at least
one forward step, which is the positive value 6 (the magnitude is always at
least the step size); generate into an empty one-slot buffer yields exactly
[6] — one positive element and no mirror; and a call on an already full
buffer silently leaves it unchanged rather than reporting an error. -/
theorem C5_truncation (seed : Nat) (vec : HVec) (hs : seed < 2 ^ 32) :
    (vec.data.length < vec.cap →
      ∃ rest, (Movement.new.generate_vector seed vec).data = vec.data ++ 6 :: rest) ∧
    (Movement.new.generate_vector seed ⟨1, []⟩).data = [6] ∧
    (vec.cap ≤ vec.data.length → Movement.new.generate_vector seed vec = vec) := by
  obtain ⟨h6, h32⟩ := Movement.forwardMagnitude_new_range seed hs
  refine ⟨?_, ?_, ?_⟩
  · intro hroom
    rw [Movement.generate_vector_data, Movement.new_step, forwardLoop_data,
      forwardChunks_cons_of_le _ _ h6 (by omega), List.append_assoc]
    exact ⟨_, rfl⟩
  · have h1 : (⟨1, []⟩ : HVec).cap - (⟨1, []⟩ : HVec).data.length = 1 := rfl
    rw [Movement.generate_vector_data, Movement.new_step, forwardLoop_data, h1,
      forwardChunks_cons_of_le _ _ h6 le_rfl]
    simp [forwardChunks]
  · intro hfull
    have hloop : forwardLoop Movement.new.step (Movement.new.forwardMagnitude seed) vec
        = vec := by
      unfold forwardLoop
      have h0 : vec.cap - vec.data.length = 0 := by omega
      rw [h0]
      rfl
    simp only [Movement.generate_vector, hloop]
    exact mirrorLoop_of_full _ (by simp [HVec.isFull]; omega)

theorem C5_truncation_witness :
    (3 : Nat) < 2 ^ 32 ∧ (Movement.new.generate_vector 3 ⟨1, []⟩).data = [6] :=
  ⟨by decide, (C5_truncation 3 ⟨2, []⟩ (by decide)).2.1⟩

/-- C2 counterexample: with defaults, seed 0 and a capacity-32 buffer that
already holds [6, -6] from an earlier call, the forward phase of the new
call writes exactly one step, 6; were the mirror phase to append exactly the
negations of the forward steps of this same call (capacity 32 is never
reached), the result would be [6, -6, 6, -6] — but the code appends the
negations of all current buffer values in reverse, producing
[6, -6, 6, -6, 6, -6]. -/
theorem C2_mirror_counterexample :
    (forwardLoop Movement.new.step (Movement.new.forwardMagnitude 0) ⟨32, [6, -6]⟩).data
        = [6, -6, 6] ∧
    (Movement.new.generate_vector 0 ⟨32, [6, -6]⟩).data = [6, -6, 6, -6, 6, -6] ∧
    ¬ (Movement.new.generate_vector 0 ⟨32, [6, -6]⟩).data = [6, -6, 6, -6] := by
  decide

/-- C2 amended: each generate call appends, after its forward phase, the i8
negations of all elements then present in the buffer (this call's forward
steps first, then any earlier contents), in reverse order, stopping early
only when the buffer reaches capacity; only on an initially empty buffer is
this exactly the reverse-order negation of the call's own forward steps. -/
theorem C2_mirror_amended (seed : Nat) (vec : HVec) :
    (Movement.new.generate_vector seed vec).data =
      (forwardLoop Movement.new.step (Movement.new.forwardMagnitude seed) vec).data ++
        (((forwardLoop Movement.new.step (Movement.new.forwardMagnitude seed) vec).data.reverse.map
            negI8).take
          (vec.cap -
            (forwardLoop Movement.new.step (Movement.new.forwardMagnitude seed) vec).data.length)) :=
  Movement.generate_vector_data Movement.new seed vec

/-- C3 counterexample: seeds 0 then u32::MAX into an initially empty
capacity-32 buffer produce a 16-element composite, not the 14-element
sequence in which each call's forward chunks are followed only by their own
reverse-order negated mirror. -/
theorem C3_scenario_counterexample :
    (generate_jiggle_vector u32Max (generate_jiggle_vector 0 ⟨32, []⟩)).data
        = [6, -6, 6, 6, 6, 6, 6, 2, -2, -6, -6, -6, -6, -6, 6, -6] ∧
    ¬ (generate_jiggle_vector u32Max (generate_jiggle_vector 0 ⟨32, []⟩)).data
        = [6, -6, 6, 6, 6, 6, 6, 2, -2, -6, -6, -6, -6, -6] := by
  decide

/-- C3 amended: two successive generator calls with seeds 0 then u32::MAX
into one initially empty capacity-32 buffer produce the deterministic
16-element composite [6, -6, 6, 6, 6, 6, 6, 2, -2, -6, -6, -6, -6, -6, 6, -6]:
the first call contributes [6, -6]; the second contributes forward chunks
[6, 6, 6, 6, 6, 2] of its mapped magnitude 32 and then the reverse-order
negations of the entire buffer contents — including the first call's two
elements — so the composite ends with the extra pair 6, -6; the total
length is 16 and the sum is 0. -/
theorem C3_scenario_amended :
    (generate_jiggle_vector u32Max (generate_jiggle_vector 0 ⟨32, []⟩)).data
        = [6, -6, 6, 6, 6, 6, 6, 2, -2, -6, -6, -6, -6, -6, 6, -6] ∧
    (generate_jiggle_vector u32Max (generate_jiggle_vector 0 ⟨32, []⟩)).data.length = 16 ∧
    (generate_jiggle_vector u32Max (generate_jiggle_vector 0 ⟨32, []⟩)).data.sum = 0 := by
  decide

/-- C6: toggle flips the stored boolean and returns the new (post-flip)
stored value, and two consecutive toggles restore the state to its value
before the first call. -/
theorem C6_toggle_flip (s : Jiggle.State) :
    (s.toggle).1 = !s.value ∧
    (s.toggle).2.value = !s.value ∧
    (s.toggle).1 = (s.toggle).2.value ∧
    ((s.toggle).2.toggle).2.value = s.value := by
  refine ⟨rfl, rfl, rfl, ?_⟩
  simp [Jiggle.State.toggle]

/-- C7: the toggle state is created holding true (jiggle enabled at
power-up, as is the JIGGLE flag of main.rs), and the read operation returns
the stored value without mutating it, so the first read before any toggle
returns true. -/
theorem C7_initial_state :
    Jiggle.State.new.value = true ∧
    (∀ s : Jiggle.State, (s.is_enabled).1 = s.value ∧ (s.is_enabled).2 = s) ∧
    (Jiggle.State.new.is_enabled).1 = true ∧
    JIGGLE = true :=
  ⟨rfl, fun _ => ⟨rfl, rfl⟩, rfl, rfl⟩

lemma noAwaitWhileLocked_replicate (n : Nat) (l : List Ev) :
    noAwaitWhileLocked false (List.replicate n Ev.awaitReport ++ l) =
      noAwaitWhileLocked false l := by
  induction n with
  | zero => simp
  | succ k ih => simpa [List.replicate_succ, noAwaitWhileLocked, stepLock, Ev.isAwait] using ih

lemma lockHeldAfter_replicate (n : Nat) (l : List Ev) :
    lockHeldAfter false (List.replicate n Ev.awaitReport ++ l) = lockHeldAfter false l := by
  induction n with
  | zero => simp
  | succ k ih => simpa [List.replicate_succ, lockHeldAfter, stepLock] using ih

/-- C8: in both task bodies — in_fut (JiggleLoop) for either value of the
flag and any number of report submissions, and led_fut (ToggleMonitor) —
the JIGGLE lock is acquired, the single read or flip-and-copy is performed,
and the lock is released before any await on report submission, timer delay
or edge wait: scanning the event trace, no suspension point is ever reached
with the lock held, and each body ends with the lock free. -/
theorem C8_no_lock_across_await (jiggle : Bool) (n : Nat) :
    noAwaitWhileLocked false (in_fut_body jiggle n) = true ∧
    lockHeldAfter false (in_fut_body jiggle n) = false ∧
    noAwaitWhileLocked false led_fut_body = true ∧
    lockHeldAfter false led_fut_body = false := by
  refine ⟨?_, ?_, by decide, by decide⟩ <;> cases jiggle
  · simp [in_fut_body, noAwaitWhileLocked, stepLock, Ev.isAwait]
  · simp [in_fut_body, noAwaitWhileLocked, stepLock, Ev.isAwait, noAwaitWhileLocked_replicate]
  · simp [in_fut_body, lockHeldAfter, stepLock]
  · simp [in_fut_body, lockHeldAfter, stepLock, lockHeldAfter_replicate]

/-- C9: the library method Movement::generate_vector with the default
configuration built by Movement::new() (upper 32, lower 6, step 6) computes
exactly the same function as the free function generate_jiggle_vector of
main.rs: for every seed, every capacity and every starting buffer content
the two produce identical results. -/
theorem C9_generate_equivalence (seed : Nat) (vec : HVec) :
    Movement.new.generate_vector seed vec = generate_jiggle_vector seed vec ∧
    Movement.new.upper_limit = 32 ∧ Movement.new.lower_limit = 6 ∧
    Movement.new.step = 6 :=
  ⟨rfl, rfl, rfl, rfl⟩

/-- C10: every element the generator appends is non-zero with magnitude at
most the step size 6; this holds on any buffer whose existing elements
already satisfy it (in particular on an empty buffer), and on that range
the i8 negation used by the mirror phase never wraps. -/
theorem C10_step_range_invariant (seed : Nat) (vec : HVec)
    (hvec : ∀ v ∈ vec.data, inStepRange v) :
    (∀ v ∈ (Movement.new.generate_vector seed vec).data, inStepRange v) ∧
    (∀ v : Int, inStepRange v → negI8 v = -v) := by
  constructor
  · intro v hv
    rw [Movement.generate_vector_data, Movement.new_step, forwardLoop_data] at hv
    have hmemAll : ∀ w ∈ vec.data ++ forwardChunks 6 (Movement.new.forwardMagnitude seed)
        (vec.cap - vec.data.length), inStepRange w := by
      intro w hw
      rcases List.mem_append.mp hw with h | h
      · exact hvec w h
      · exact Or.inl (forwardChunks_mem _ _ w h)
    rcases List.mem_append.mp hv with h | h
    · exact hmemAll v h
    · have h' : v ∈ (vec.data ++ forwardChunks 6 (Movement.new.forwardMagnitude seed)
          (vec.cap - vec.data.length)).reverse.map negI8 := List.take_subset _ _ h
      rcases List.mem_map.mp h' with ⟨w, hw, rfl⟩
      have hw' := hmemAll w (List.mem_reverse.mp hw)
      unfold inStepRange at hw' ⊢
      have hne : w ≠ -128 := by rcases hw' with ⟨h1, h2⟩ | ⟨h1, h2⟩ <;> omega
      rw [negI8_of_ne hne]
      rcases hw' with ⟨h1, h2⟩ | ⟨h1, h2⟩
      · exact Or.inr (by omega)
      · exact Or.inl (by omega)
  · intro v hv
    unfold inStepRange at hv
    have hne : v ≠ -128 := by rcases hv with ⟨h1, h2⟩ | ⟨h1, h2⟩ <;> omega
    exact negI8_of_ne hne

theorem C10_step_range_invariant_witness :
    (∀ v ∈ ((⟨4, []⟩ : HVec)).data, inStepRange v) ∧
      (∀ v ∈ (Movement.new.generate_vector 0 ⟨4, []⟩).data, inStepRange v) :=
  ⟨by decide, (C10_step_range_invariant 0 ⟨4, []⟩ (by decide)).1⟩
